import Mathlib

/-!
Shallow embedding of the weekly-availability scheduler (source:
`src/unnamed/part_000`, a Next.js client component).  JavaScript
`Record<string, T>` objects are modelled as insertion-ordered association
lists; numbers that the source uses as integers (slot indices, counts,
millisecond timestamps, pixel coordinates) are modelled as `Nat` / `Int`.
The axis-dominance ratio `1.2` is modelled exactly as the rational `6/5`.
-/

namespace Scheduler

/-- `DAY_LABELS` from the source (Monday..Sunday, Korean labels). -/
def DAY_LABELS : List String := ["월", "화", "수", "목", "금", "토", "일"]

def START_HOUR : Nat := 16

def END_HOUR : Nat := 24

def SLOT_MINUTES : Nat := 30

/-- `SLOT_COUNT = ((END_HOUR - START_HOUR) * 60) / SLOT_MINUTES` (= 16). -/
def SLOT_COUNT : Nat := ((END_HOUR - START_HOUR) * 60) / SLOT_MINUTES

def DURATION_OPTIONS : List Nat := [30, 60, 90, 120]

def TOUCH_GESTURE_START_PX : Nat := 10

/-- `keyFor(day, slot)` returns the canonical slot key `"{day}-{slot}"`. -/
def keyFor (day slot : Nat) : String := toString day ++ "-" ++ toString slot

/-- A JS `Record<string, *>` restricted to boolean truthiness of the stored
values: an insertion-ordered association list from key to the truthiness of
the stored value.  A genuine cell set stores only the literal `true`. -/
abbrev Cells := List (String × Bool)

/-- `Boolean(record[key])`: truthiness of the value stored at `key`
(`false` when the key is absent). -/
def cellsLookup (c : Cells) (k : String) : Bool :=
  match c.find? (fun p => p.1 == k) with
  | some p => p.2
  | none => false

/-- `Object.keys(record)` (in insertion order). -/
def cellKeys (c : Cells) : List String := c.map Prod.fst

/-- Key presence (`key in record`), ignoring the stored value. -/
def hasKey (c : Cells) (k : String) : Bool := c.any (fun p => p.1 == k)

/-- The record stores only the literal value `true`. -/
def allTrueCells (c : Cells) : Bool := c.all (fun p => p.2)

/-- `record[key] = true`: update in place when the key exists, append
otherwise. -/
def setCellTrue (c : Cells) (k : String) : Cells :=
  if c.any (fun p => p.1 == k) then
    c.map (fun p => if p.1 == k then (p.1, true) else p)
  else
    c ++ [(k, true)]

/-- `delete record[key]`. -/
def deleteCell (c : Cells) (k : String) : Cells :=
  c.filter (fun p => p.1 != k)

/-- Parsed `updated_at` value: `null`, a string `new Date` cannot parse
(`NaN`), or a valid instant in epoch milliseconds. -/
inductive Timestamp where
  | null : Timestamp
  | invalid : Timestamp
  | ms : Int → Timestamp
  deriving Repr, DecidableEq

/-- `TeamMember` row (the fields the verified logic reads). -/
structure TeamMember where
  id : String
  user_id : String
  display_name : String
  cells : Cells
  updated_at : Timestamp
  is_stale : Bool
  deriving Repr, DecidableEq

/-- `isStaleWeek(updatedAt, weekStartMs)`: null or unparsable timestamps are
stale; otherwise stale iff strictly before the week boundary. -/
def isStaleWeek (updatedAt : Timestamp) (weekStartMs : Int) : Bool :=
  match updatedAt with
  | .null => true
  | .invalid => true
  | .ms t => t < weekStartMs

/-- The per-row mapping inside `fetchMembers`: a stale row is presented with
empty cells and `is_stale = true`, a fresh row passes its cells through with
`is_stale = false`. -/
def refreshMember (weekStartMs : Int) (m : TeamMember) : TeamMember :=
  if isStaleWeek m.updated_at weekStartMs then
    { m with cells := [], is_stale := true }
  else
    { m with is_stale := false }

/-- `sanitizeCells(value)`: `none` models a non-object / null input; an
object keeps exactly its truthy entries, each stored as literal `true`. -/
def sanitizeCells (value : Option Cells) : Cells :=
  match value with
  | none => []
  | some entries => (entries.filter (fun p => p.2)).map (fun p => (p.1, true))

/-- `sameCells(left, right)`: key counts match and every left key is truthy
in `right`. -/
def sameCells (left right : Cells) : Bool :=
  left.length == right.length && left.all (fun p => cellsLookup right p.1)

/-- `isAvailable(member, key) = Boolean(member.cells[key])`. -/
def isAvailable (m : TeamMember) (key : String) : Bool := cellsLookup m.cells key

/-- The draft-buffer update inside `paintCell` (the `setDraftCells` updater):
no-op when the current truthiness already equals `value`, otherwise add or
delete the key. -/
def paintCellBuffer (previous : Cells) (day slot : Nat) (value : Bool) : Cells :=
  let key := keyFor day slot
  let currentlyMarked := cellsLookup previous key
  if currentlyMarked == value then previous
  else if value then setCellTrue previous key
  else deleteCell previous key

/-- `isCellInputEnabled = canEditSelected && (!isMobileViewport || mobileEditEnabled)`. -/
def isCellInputEnabled (canEditSelected isMobileViewport mobileEditEnabled : Bool) : Bool :=
  canEditSelected && (!isMobileViewport || mobileEditEnabled)

/-- `paintCell(day, slot, value)`: returns the draft unchanged when cell
input is disabled, otherwise applies the buffer update. -/
def paintCell (enabled : Bool) (draft : Cells) (day slot : Nat) (value : Bool) : Cells :=
  if enabled then paintCellBuffer draft day slot value else draft

/-- The in-memory component state `paintCell` can reach (`members` via
`setMembers`, `draftCells` via `setDraftCells`); `paintCell` only ever calls
`setDraftCells`. -/
structure HomeState where
  members : List TeamMember
  draftCells : Cells
  deriving Repr, DecidableEq

/-- `paintCell` acting on the whole component state: the only state it may
touch is the draft buffer, and only when cell input is enabled. -/
def paintCellHome (canEditSelected isMobileViewport mobileEditEnabled : Bool)
    (s : HomeState) (day slot : Nat) (value : Bool) : HomeState :=
  let enabled := isCellInputEnabled canEditSelected isMobileViewport mobileEditEnabled
  { s with draftCells := paintCell enabled s.draftCells day slot value }

/-- The authoritative write issued by `persistMyCells` when it does not
short-circuit. -/
structure WriteOp where
  cells : Cells
  lastEditor : String
  updatedAtMs : Int
  deriving Repr, DecidableEq

/-- `persistMyCells(nextCells)`: no write without a client, own row, or user
id; no write when the buffer is `sameCells`-equal to the committed cells;
otherwise writes the full buffer with `last_editor` = own display name and
`updated_at` = now. -/
def persistMyCells (hasClient : Bool) (myMember : Option TeamMember) (userId : String)
    (nowMs : Int) (nextCells : Cells) : Option WriteOp :=
  match hasClient, myMember with
  | false, _ => none
  | true, none => none
  | true, some m =>
    if userId == "" then none
    else if sameCells m.cells nextCells then none
    else some { cells := nextCells, lastEditor := m.display_name, updatedAtMs := nowMs }

/-- The draft-reconciliation effect: when no drawing is active and the local
user's row is known, replace the buffer by the committed cells unless they
are `sameCells`-equal (in which case the previous buffer object is kept). -/
def reconcileDraft (drawingActive : Bool) (myMember : Option TeamMember)
    (draft : Cells) : Cells :=
  if drawingActive then draft
  else
    match myMember with
    | none => draft
    | some m => if sameCells draft m.cells then draft else m.cells

/-- `clearMyCells` resets the draft buffer to the empty record before
persisting it. -/
def clearMyCellsDraft : Cells := []

/-- `membersForCalculation`: the member list with the local user's cells
taken from the draft buffer. -/
def membersForCalculation (members : List TeamMember) (userId : String)
    (draftCells : Cells) : List TeamMember :=
  members.map (fun m => if m.user_id == userId then { m with cells := draftCells } else m)

/-- All slot keys in iteration order (`day` outer 0..6, `slot` inner
0..SLOT_COUNT-1). -/
def allSlotKeys : List String :=
  (List.range DAY_LABELS.length).flatMap
    (fun day => (List.range SLOT_COUNT).map (fun slot => keyFor day slot))

/-- `availabilityCountByCell`: for every slot key, the fold
`count + (isAvailable(member, key) ? 1 : 0)` over the member list. -/
def availabilityCountByCell (members : List TeamMember) : List (String × Nat) :=
  allSlotKeys.map (fun key =>
    (key, members.foldl (fun count m => count + (if isAvailable m key then 1 else 0)) 0))

/-- `counts[key] ?? 0`. -/
def countLookup (counts : List (String × Nat)) (key : String) : Nat :=
  match counts.find? (fun p => p.1 == key) with
  | some p => p.2
  | none => 0

/-- `commonCells`: empty when there are no members, otherwise the record of
all slot keys whose availability count equals the member count. -/
def commonCells (members : List TeamMember) : Cells :=
  if members.length == 0 then []
  else
    (allSlotKeys.filter (fun key =>
        countLookup (availabilityCountByCell members) key == members.length)).map
      (fun k => (k, true))

/-- `TimeBlock` (`endSlot` is exclusive). -/
structure TimeBlock where
  day : Nat
  startSlot : Nat
  endSlot : Nat
  minutes : Nat
  deriving Repr, DecidableEq

/-- The block emitted for the run `[s, e)` of a day. -/
def mkBlock (day s e : Nat) : TimeBlock :=
  { day := day, startSlot := s, endSlot := e, minutes := (e - s) * SLOT_MINUTES }

/-- One iteration of the per-day run scan in `recommendedBlocks`: `d slot`
is the `common` flag of the iteration, the `Option Nat` is the `start`
variable (`none` = `-1`). -/
def scanStep (d : Nat → Bool) (day minSlots : Nat)
    (acc : List TimeBlock × Option Nat) (slot : Nat) : List TimeBlock × Option Nat :=
  match acc with
  | (blocks, start) =>
    if d slot then
      (blocks, match start with | none => some slot | some s => some s)
    else
      match start with
      | none => (blocks, none)
      | some s =>
        if minSlots ≤ slot - s then (blocks ++ [mkBlock day s slot], none)
        else (blocks, none)

/-- `recommendedBlocks`: per day, scan slots `0..SLOT_COUNT` (inclusive; the
flag at `SLOT_COUNT` is forced false) tracking runs of common slots, with
`minSlots = max(1, ⌊minimumDuration / SLOT_MINUTES⌋)`. -/
def recommendedBlocks (members : List TeamMember) (minimumDuration : Nat) : List TimeBlock :=
  if members.length == 0 then []
  else
    let minSlots := max 1 (minimumDuration / SLOT_MINUTES)
    let commonRec := commonCells members
    (List.range DAY_LABELS.length).flatMap (fun day =>
      ((List.range (SLOT_COUNT + 1)).foldl
        (scanStep
          (fun slot => decide (slot < SLOT_COUNT) && cellsLookup commonRec (keyFor day slot))
          day minSlots)
        ([], none)).1)

/-- Touch gesture classification state. -/
inductive GestureMode where
  | pending : GestureMode
  | paint : GestureMode
  | scroll : GestureMode
  deriving Repr, DecidableEq

/-- `TouchGestureState` (`pointerId = none` models JS `null`). -/
structure TouchGestureState where
  active : Bool
  pointerId : Option Int
  startX : Int
  startY : Int
  startDay : Nat
  startSlot : Nat
  value : Bool
  mode : GestureMode
  deriving Repr, DecidableEq

/-- `DrawingState`. -/
structure DrawingState where
  active : Bool
  value : Bool
  deriving Repr, DecidableEq

/-- The literal gesture reset written by `stopDrawing`. -/
def resetGesture : TouchGestureState :=
  { active := false, pointerId := none, startX := 0, startY := 0,
    startDay := 0, startSlot := 0, value := true, mode := .pending }

/-- `gesture.pointerId !== null && event.pointerId !== gesture.pointerId`. -/
def movePointerMismatch (gesturePid : Option Int) (eventPid : Int) : Bool :=
  match gesturePid with
  | some g => g != eventPid
  | none => false

/-- `event && gesture.pointerId !== null && event.pointerId !== gesture.pointerId`
(`stopDrawing` may be called without an event). -/
def stopPointerMismatch (eventPid gesturePid : Option Int) : Bool :=
  match eventPid, gesturePid with
  | some e, some g => e != g
  | _, _ => false

/-- The axis-dominance test `absX > absY * TOUCH_GESTURE_AXIS_RATIO` with the
ratio `1.2` taken exactly (i.e. `5 * absX > 6 * absY`). -/
def axisDominantX (absX absY : Nat) : Bool := 6 * absY < 5 * absX

/-- Result of one `handlePointerMove` invocation: the updated gesture,
drawing and draft states, plus the list of `paintCell(day, slot, value)`
invocations the handler performed, in order. -/
structure MoveOutcome where
  gesture : TouchGestureState
  drawing : DrawingState
  draft : Cells
  paintCalls : List (Nat × Nat × Bool)
  deriving Repr, DecidableEq

/-- `handlePointerMove(event)` as a pure transition.  `findCell` is the
result of the geometric hit test `findCellByPoint(event.clientX,
event.clientY)`.  The `latest` gesture read from the ref after a pending
classification still holds the pre-classification state (React state updates
flush after the handler), which the translation reflects: after classifying
**paint** the handler goes on to hit-test with the recorded value, after
classifying **scroll** it returns at once. -/
def handlePointerMove (enabled : Bool) (gesture : TouchGestureState)
    (drawing : DrawingState) (draft : Cells) (eventPid clientX clientY : Int)
    (findCell : Option (Nat × Nat)) : MoveOutcome :=
  if gesture.active then
    if movePointerMismatch gesture.pointerId eventPid then
      ⟨gesture, drawing, draft, []⟩
    else if gesture.mode = .pending then
      let absX := (clientX - gesture.startX).natAbs
      let absY := (clientY - gesture.startY).natAbs
      if absX < TOUCH_GESTURE_START_PX ∧ absY < TOUCH_GESTURE_START_PX then
        ⟨gesture, drawing, draft, []⟩
      else if axisDominantX absX absY then
        ⟨{ gesture with mode := .scroll }, drawing, draft, []⟩
      else
        let g := { gesture with mode := .paint }
        let dr : DrawingState := { active := true, value := gesture.value }
        let draft1 := paintCell enabled draft gesture.startDay gesture.startSlot gesture.value
        match findCell with
        | none => ⟨g, dr, draft1, [(gesture.startDay, gesture.startSlot, gesture.value)]⟩
        | some (day, slot) =>
          ⟨g, dr, paintCell enabled draft1 day slot gesture.value,
            [(gesture.startDay, gesture.startSlot, gesture.value), (day, slot, gesture.value)]⟩
    else if gesture.mode = .scroll then
      ⟨gesture, drawing, draft, []⟩
    else
      match findCell with
      | none => ⟨gesture, drawing, draft, []⟩
      | some (day, slot) =>
        ⟨gesture, drawing, paintCell enabled draft day slot gesture.value,
          [(day, slot, gesture.value)]⟩
  else if drawing.active then
    match findCell with
    | none => ⟨gesture, drawing, draft, []⟩
    | some (day, slot) =>
      ⟨gesture, drawing, paintCell enabled draft day slot drawing.value,
        [(day, slot, drawing.value)]⟩
  else
    ⟨gesture, drawing, draft, []⟩

/-- Result of one `stopDrawing` invocation: updated states, the `paintCell`
invocations performed, and the buffers handed to `persistMyCells`, in
order. -/
structure StopOutcome where
  gesture : TouchGestureState
  drawing : DrawingState
  draft : Cells
  paintCalls : List (Nat × Nat × Bool)
  commits : List Cells
  deriving Repr, DecidableEq

/-- `stopDrawing(event?)` as a pure transition.  A gesture still pending at
release is treated as a tap: one `paintCell` at the recorded cell with the
recorded value, then one commit of the resulting draft (the 80 ms delayed
`persistMyCells(draftCellsRef.current)` reads the buffer after that edit has
flushed).  Commits only happen when the selected member is the local user's
own row (`canEditSelected`). -/
def stopDrawing (canEditSelected enabled : Bool) (gesture : TouchGestureState)
    (drawing : DrawingState) (draft : Cells) (eventPid : Option Int) : StopOutcome :=
  if gesture.active then
    if stopPointerMismatch eventPid gesture.pointerId then
      ⟨gesture, drawing, draft, [], []⟩
    else if gesture.mode = .pending then
      let draft1 := paintCell enabled draft gesture.startDay gesture.startSlot gesture.value
      ⟨resetGesture, { active := false, value := drawing.value }, draft1,
        [(gesture.startDay, gesture.startSlot, gesture.value)],
        if canEditSelected then [draft1] else []⟩
    else
      ⟨resetGesture, { active := false, value := drawing.value }, draft, [],
        if canEditSelected then [draft] else []⟩
  else
    ⟨gesture, { active := false, value := drawing.value }, draft, [],
      if canEditSelected then [draft] else []⟩

/-! ### Basic record lemmas -/

theorem cellsLookup_map_set_self (c : Cells) (k : String)
    (h : c.any (fun p => p.1 == k) = true) :
    cellsLookup (c.map (fun p => if p.1 == k then (p.1, true) else p)) k = true := by
  induction c with
  | nil => simp at h
  | cons p c ih =>
    by_cases hp : (p.1 == k) = true
    · simp [cellsLookup, List.find?, hp]
    · simp only [List.any_cons, hp, Bool.false_or] at h
      simpa [cellsLookup, List.find?, hp] using ih h

theorem cellsLookup_append_self (c : Cells) (k : String)
    (h : c.any (fun p => p.1 == k) = false) :
    cellsLookup (c ++ [(k, true)]) k = true := by
  induction c with
  | nil => simp [cellsLookup, List.find?]
  | cons p c ih =>
    simp only [List.any_cons, Bool.or_eq_false_iff] at h
    simpa [cellsLookup, List.find?, h.1] using ih h.2

theorem cellsLookup_setCellTrue_self (c : Cells) (k : String) :
    cellsLookup (setCellTrue c k) k = true := by
  unfold setCellTrue
  by_cases h : c.any (fun p => p.1 == k) = true
  · simpa [h] using cellsLookup_map_set_self c k h
  · have h' : c.any (fun p => p.1 == k) = false := by
      revert h; cases c.any (fun p => p.1 == k) <;> simp
    simpa [h'] using cellsLookup_append_self c k h'

theorem cellsLookup_deleteCell_self (c : Cells) (k : String) :
    cellsLookup (deleteCell c k) k = false := by
  unfold deleteCell
  induction c with
  | nil => simp [cellsLookup]
  | cons p c ih =>
    by_cases hp : (p.1 == k) = true
    · simpa [List.filter_cons, bne, hp] using ih
    · have hb : (p.1 == k) = false := by
        revert hp; cases p.1 == k <;> simp
      simpa [List.filter_cons, bne, hb, cellsLookup, List.find?] using ih

theorem cellsLookup_paintCellBuffer_self (c : Cells) (day slot : Nat) (v : Bool) :
    cellsLookup (paintCellBuffer c day slot v) (keyFor day slot) = v := by
  unfold paintCellBuffer
  by_cases h : (cellsLookup c (keyFor day slot) == v) = true
  · simpa [h] using (beq_iff_eq.mp h)
  · have h' : (cellsLookup c (keyFor day slot) == v) = false := by
      revert h; cases cellsLookup c (keyFor day slot) == v <;> simp
    cases v with
    | true => simpa [h'] using cellsLookup_setCellTrue_self c (keyFor day slot)
    | false => simpa [h'] using cellsLookup_deleteCell_self c (keyFor day slot)

theorem paintCellBuffer_idem (c : Cells) (day slot : Nat) (v : Bool) :
    paintCellBuffer (paintCellBuffer c day slot v) day slot v = paintCellBuffer c day slot v := by
  conv_lhs => rw [paintCellBuffer]
  simp [cellsLookup_paintCellBuffer_self]

theorem paintCellBuffer_noop (c : Cells) (day slot : Nat) (v : Bool)
    (h : cellsLookup c (keyFor day slot) = v) :
    paintCellBuffer c day slot v = c := by
  rw [paintCellBuffer]
  simp [h]

/-! ### True-valued-record (genuine set) lemmas -/

theorem allTrueCells_setCellTrue (c : Cells) (k : String) (h : allTrueCells c = true) :
    allTrueCells (setCellTrue c k) = true := by
  simp only [allTrueCells, List.all_eq_true] at h ⊢
  unfold setCellTrue
  by_cases hc : c.any (fun p => p.1 == k) = true
  · simp only [hc, if_true]
    intro p hp
    simp only [List.mem_map] at hp
    obtain ⟨q, hq, rfl⟩ := hp
    cases hqk : (q.1 == k) with
    | true => simp [hqk]
    | false => simpa [hqk] using h q hq
  · simp only [hc, if_false]
    intro p hp
    rcases List.mem_append.mp hp with hp | hp
    · exact h p hp
    · simp only [List.mem_singleton] at hp
      simp [hp]

theorem allTrueCells_deleteCell (c : Cells) (k : String) (h : allTrueCells c = true) :
    allTrueCells (deleteCell c k) = true := by
  simp only [allTrueCells, List.all_eq_true] at h ⊢
  intro p hp
  exact h p (List.mem_of_mem_filter hp)

theorem allTrueCells_paintCellBuffer (c : Cells) (day slot : Nat) (v : Bool)
    (h : allTrueCells c = true) :
    allTrueCells (paintCellBuffer c day slot v) = true := by
  unfold paintCellBuffer
  by_cases hb : (cellsLookup c (keyFor day slot) == v) = true
  · simpa [hb] using h
  · have hb' : (cellsLookup c (keyFor day slot) == v) = false := by
      revert hb; cases cellsLookup c (keyFor day slot) == v <;> simp
    cases v with
    | true => simpa [hb'] using allTrueCells_setCellTrue c (keyFor day slot) h
    | false => simpa [hb'] using allTrueCells_deleteCell c (keyFor day slot) h

theorem allTrueCells_foldl_paint (edits : List (Nat × Nat × Bool)) (c : Cells)
    (h : allTrueCells c = true) :
    allTrueCells
      (edits.foldl (fun acc e => paintCellBuffer acc e.1 e.2.1 e.2.2) c) = true := by
  induction edits generalizing c with
  | nil => exact h
  | cons e es ih =>
    exact ih _ (allTrueCells_paintCellBuffer c e.1 e.2.1 e.2.2 h)

/-! ### Claim theorems: draft-buffer edits -/

/-- C3: for every day, slot, boolean value and draft-buffer state, applying
`paintCell(d,s,v)` twice in a row yields the same buffer as applying it
once; when the slot's membership already equals `v`, the buffer is left
unchanged (the edit is a no-op). -/
theorem paintCell_idempotent_noop (enabled : Bool) (draft : Cells)
    (day slot : Nat) (v : Bool) :
    paintCell enabled (paintCell enabled draft day slot v) day slot v
      = paintCell enabled draft day slot v
    ∧ (cellsLookup draft (keyFor day slot) = v →
        paintCell enabled draft day slot v = draft) := by
  constructor
  · cases enabled with
    | false => simp [paintCell]
    | true => simp [paintCell, paintCellBuffer_idem]
  · intro h
    cases enabled with
    | false => simp [paintCell]
    | true => simp [paintCell, paintCellBuffer_noop draft day slot v h]

theorem paintCell_idempotent_noop_witness :
    paintCell true (paintCell true [("0-1", true)] 0 2 true) 0 2 true
      = paintCell true [("0-1", true)] 0 2 true
    ∧ paintCell true [("0-1", true)] 0 1 true = [("0-1", true)] :=
  ⟨(paintCell_idempotent_noop true [("0-1", true)] 0 2 true).1,
    (paintCell_idempotent_noop true [("0-1", true)] 0 1 true).2 (by decide)⟩

/-- C10: every cells record the program constructs is a genuine set:
`sanitizeCells` output, the draft buffer after any sequence of `paintCell`
buffer updates starting from a genuine set, and the cleared buffer store
only the literal value `true` under every key. -/
theorem cells_records_are_sets (v : Option Cells) (edits : List (Nat × Nat × Bool))
    (c : Cells) :
    allTrueCells (sanitizeCells v) = true
    ∧ (allTrueCells c = true →
        allTrueCells
          (edits.foldl (fun acc e => paintCellBuffer acc e.1 e.2.1 e.2.2) c) = true)
    ∧ allTrueCells clearMyCellsDraft = true := by
  refine ⟨?_, fun h => allTrueCells_foldl_paint edits c h, rfl⟩
  cases v with
  | none => rfl
  | some entries =>
    simp only [sanitizeCells, allTrueCells, List.all_eq_true]
    intro p hp
    simp only [List.mem_map] at hp
    obtain ⟨q, _, rfl⟩ := hp
    rfl

theorem cells_records_are_sets_witness :
    allTrueCells (sanitizeCells (some [("0-1", true), ("0-2", false)])) = true
    ∧ allTrueCells
        ([((0 : Nat), (1 : Nat), true), ((0 : Nat), (1 : Nat), false)].foldl
          (fun acc e => paintCellBuffer acc e.1 e.2.1 e.2.2) [("0-3", true)]) = true :=
  ⟨(cells_records_are_sets (some [("0-1", true), ("0-2", false)]) [] []).1,
    (cells_records_are_sets none [((0 : Nat), (1 : Nat), true), ((0 : Nat), (1 : Nat), false)]
      [("0-3", true)]).2.1 (by decide)⟩

/-- C9 counterexample to the claim as stated: with the selected member being
the local user's own row, a desktop viewport and the mobile edit toggle off
("mobile edit mode is off"), `paintCell` is not ignored — it mutates the
draft buffer. -/
theorem paintCell_disabled_counterexample :
    paintCellHome true false false ⟨[], []⟩ 0 0 true ≠ ⟨[], []⟩ := by
  decide

/-- C9 (amended): calling `paintCell` from a disabled context — the selected
member is not the local user's own row, or the viewport is mobile and mobile
edit mode is off — leaves the draft buffer and all member state unchanged
(and, being total, raises no error). -/
theorem paintCell_disabled_no_mutation (canEditSelected isMobileViewport mobileEditEnabled : Bool)
    (s : HomeState) (day slot : Nat) (v : Bool)
    (h : canEditSelected = false ∨ (isMobileViewport = true ∧ mobileEditEnabled = false)) :
    paintCellHome canEditSelected isMobileViewport mobileEditEnabled s day slot v = s := by
  have he : isCellInputEnabled canEditSelected isMobileViewport mobileEditEnabled = false := by
    rcases h with h | ⟨h1, h2⟩
    · simp [isCellInputEnabled, h]
    · simp [isCellInputEnabled, h1, h2]
  simp [paintCellHome, he, paintCell]

theorem paintCell_disabled_no_mutation_witness :
    paintCellHome false false false ⟨[], [("0-1", true)]⟩ 0 0 true
      = ⟨[], [("0-1", true)]⟩ :=
  paintCell_disabled_no_mutation false false false ⟨[], [("0-1", true)]⟩ 0 0 true (Or.inl rfl)

/-! ### Claim theorems: staleness -/

/-- C5: a member row whose `updated_at` is null, unparsable, or strictly
before the week boundary is presented with empty cells and `is_stale = true`;
a row at or after the boundary passes its cells through unchanged with
`is_stale = false`. -/
theorem member_staleness (m : TeamMember) (weekStartMs : Int) :
    (m.updated_at = .null →
        refreshMember weekStartMs m = { m with cells := [], is_stale := true })
    ∧ (m.updated_at = .invalid →
        refreshMember weekStartMs m = { m with cells := [], is_stale := true })
    ∧ (∀ t : Int, m.updated_at = .ms t → t < weekStartMs →
        refreshMember weekStartMs m = { m with cells := [], is_stale := true })
    ∧ (∀ t : Int, m.updated_at = .ms t → weekStartMs ≤ t →
        refreshMember weekStartMs m = { m with is_stale := false }) := by
  refine ⟨?_, ?_, ?_, ?_⟩
  · intro h; simp [refreshMember, isStaleWeek, h]
  · intro h; simp [refreshMember, isStaleWeek, h]
  · intro t h hlt; simp [refreshMember, isStaleWeek, h, hlt]
  · intro t h hge
    have hnl : ¬ (t < weekStartMs) := not_lt.mpr hge
    simp [refreshMember, isStaleWeek, h, hnl]

theorem member_staleness_witness :
    refreshMember 3 ⟨"id", "u", "n", [("0-1", true)], .ms 5, true⟩
      = { (⟨"id", "u", "n", [("0-1", true)], .ms 5, true⟩ : TeamMember) with
          is_stale := false } :=
  (member_staleness ⟨"id", "u", "n", [("0-1", true)], .ms 5, true⟩ 3).2.2.2 5 rfl (by decide)

/-! ### Claim theorems: touch gestures -/

/-- C6: for a pending touch gesture, movement with both axis displacements
below the 10 px threshold is ignored; once the threshold is exceeded the
gesture classifies as scroll exactly when the horizontal displacement
exceeds the vertical displacement scaled by 1.2, and as paint otherwise; a
gesture in scroll mode performs zero cell edits (and changes no state) for
the remainder. -/
theorem touch_axis_lock (enabled : Bool) (g : TouchGestureState) (dr : DrawingState)
    (draft : Cells) (pid clientX clientY : Int) (findCell : Option (Nat × Nat))
    (hactive : g.active = true) (hpid : g.pointerId = some pid) :
    ((g.mode = .pending ∧ (clientX - g.startX).natAbs < TOUCH_GESTURE_START_PX
        ∧ (clientY - g.startY).natAbs < TOUCH_GESTURE_START_PX) →
      handlePointerMove enabled g dr draft pid clientX clientY findCell
        = ⟨g, dr, draft, []⟩)
    ∧ ((g.mode = .pending ∧ ¬ ((clientX - g.startX).natAbs < TOUCH_GESTURE_START_PX
        ∧ (clientY - g.startY).natAbs < TOUCH_GESTURE_START_PX)) →
      (handlePointerMove enabled g dr draft pid clientX clientY findCell).gesture.mode
        = (if axisDominantX (clientX - g.startX).natAbs (clientY - g.startY).natAbs
            then GestureMode.scroll else GestureMode.paint))
    ∧ (g.mode = .scroll →
      handlePointerMove enabled g dr draft pid clientX clientY findCell
        = ⟨g, dr, draft, []⟩) := by
  have hmis : movePointerMismatch g.pointerId pid = false := by
    rw [hpid]; simp [movePointerMismatch]
  refine ⟨?_, ?_, ?_⟩
  · rintro ⟨hm, hx, hy⟩
    simp [handlePointerMove, hactive, hmis, hm, hx, hy]
  · rintro ⟨hm, hthr⟩
    by_cases hax : axisDominantX (clientX - g.startX).natAbs (clientY - g.startY).natAbs = true
    · simp [handlePointerMove, hactive, hmis, hm, hthr, hax]
    · have hax' : axisDominantX (clientX - g.startX).natAbs (clientY - g.startY).natAbs = false := by
        revert hax
        cases axisDominantX (clientX - g.startX).natAbs (clientY - g.startY).natAbs <;> simp
      cases findCell with
      | none => simp [handlePointerMove, hactive, hmis, hm, hthr, hax']
      | some cell =>
        obtain ⟨day, slot⟩ := cell
        simp [handlePointerMove, hactive, hmis, hm, hthr, hax']
  · intro hm
    have hnp : ¬ (g.mode = GestureMode.pending) := by rw [hm]; intro h; exact absurd h (by decide)
    simp [handlePointerMove, hactive, hmis, hnp, hm]

theorem touch_axis_lock_witness :
    (handlePointerMove true ⟨true, some 1, 100, 100, 0, 0, true, .pending⟩
        ⟨false, true⟩ [] 1 112 100 none).gesture.mode = GestureMode.scroll
    ∧ (handlePointerMove true ⟨true, some 1, 100, 100, 0, 0, true, .pending⟩
        ⟨false, true⟩ [] 1 100 112 none).gesture.mode = GestureMode.paint := by
  constructor
  · rw [(touch_axis_lock true ⟨true, some 1, 100, 100, 0, 0, true, .pending⟩
      ⟨false, true⟩ [] 1 112 100 none rfl rfl).2.1 (by decide)]
    decide
  · rw [(touch_axis_lock true ⟨true, some 1, 100, 100, 0, 0, true, .pending⟩
      ⟨false, true⟩ [] 1 100 112 none rfl rfl).2.1 (by decide)]
    decide

/-- C7: a touch gesture ending (pointer-up or pointer-cancel, matching
pointer id) while still pending applies exactly one edit — at the recorded
start cell with the recorded value — and, on an own row, triggers exactly
one commit of the resulting draft buffer. -/
theorem pending_tap_single_edit_commit (canEditSelected enabled : Bool)
    (g : TouchGestureState) (dr : DrawingState) (draft : Cells) (pid : Int)
    (hactive : g.active = true) (hmode : g.mode = .pending)
    (hpid : g.pointerId = some pid) :
    (stopDrawing canEditSelected enabled g dr draft (some pid)).paintCalls
        = [(g.startDay, g.startSlot, g.value)]
    ∧ (canEditSelected = true →
        (stopDrawing canEditSelected enabled g dr draft (some pid)).commits
          = [paintCell enabled draft g.startDay g.startSlot g.value]) := by
  have hmis : stopPointerMismatch (some pid) g.pointerId = false := by
    rw [hpid]; simp [stopPointerMismatch]
  constructor
  · simp [stopDrawing, hactive, hmis, hmode]
  · intro hce
    simp [stopDrawing, hactive, hmis, hmode, hce]

theorem pending_tap_single_edit_commit_witness :
    (stopDrawing true true ⟨true, some 7, 100, 100, 2, 3, true, .pending⟩
        ⟨false, true⟩ [] (some 7)).paintCalls = [(2, 3, true)]
    ∧ (stopDrawing true true ⟨true, some 7, 100, 100, 2, 3, true, .pending⟩
        ⟨false, true⟩ [] (some 7)).commits = [paintCell true [] 2 3 true] :=
  ⟨(pending_tap_single_edit_commit true true ⟨true, some 7, 100, 100, 2, 3, true, .pending⟩
      ⟨false, true⟩ [] 7 rfl rfl rfl).1,
    (pending_tap_single_edit_commit true true ⟨true, some 7, 100, 100, 2, 3, true, .pending⟩
      ⟨false, true⟩ [] 7 rfl rfl rfl).2 rfl⟩

/-! ### `sameCells` is set equality on genuine sets -/

theorem cellsLookup_eq_hasKey (c : Cells) (k : String) (h : allTrueCells c = true) :
    cellsLookup c k = hasKey c k := by
  induction c with
  | nil => rfl
  | cons p c ih =>
    simp only [allTrueCells, List.all_cons, Bool.and_eq_true] at h
    cases hp : (p.1 == k) with
    | true => simp [cellsLookup, hasKey, List.find?, hp, h.1]
    | false =>
      have hrec := ih (by simpa [allTrueCells] using h.2)
      simp only [cellsLookup, hasKey, List.find?, List.any_cons, hp, Bool.false_or] at hrec ⊢
      exact hrec

theorem hasKey_iff_mem (c : Cells) (k : String) :
    hasKey c k = true ↔ k ∈ cellKeys c := by
  simp only [hasKey, cellKeys, List.any_eq_true, List.mem_map]
  constructor
  · rintro ⟨p, hp, hpk⟩
    exact ⟨p, hp, beq_iff_eq.mp hpk⟩
  · rintro ⟨p, hp, hpk⟩
    exact ⟨p, hp, beq_iff_eq.mpr hpk⟩

theorem sameCells_iff_toFinset (l r : Cells)
    (hl : (cellKeys l).Nodup) (hr : (cellKeys r).Nodup)
    (hrt : allTrueCells r = true) :
    sameCells l r = true ↔ (cellKeys l).toFinset = (cellKeys r).toFinset := by
  unfold sameCells
  rw [Bool.and_eq_true, beq_iff_eq, List.all_eq_true]
  constructor
  · rintro ⟨hlen, hall⟩
    have hsub : (cellKeys l).toFinset ⊆ (cellKeys r).toFinset := by
      intro k hk
      rw [List.mem_toFinset] at hk ⊢
      rcases List.mem_map.mp hk with ⟨p, hp, rfl⟩
      have hlk := hall p hp
      rw [cellsLookup_eq_hasKey r p.1 hrt] at hlk
      exact (hasKey_iff_mem r p.1).mp hlk
    apply Finset.eq_of_subset_of_card_le hsub
    rw [List.toFinset_card_of_nodup hr, List.toFinset_card_of_nodup hl]
    simp [cellKeys, hlen]
  · intro heq
    constructor
    · have hcard := congrArg Finset.card heq
      rw [List.toFinset_card_of_nodup hl, List.toFinset_card_of_nodup hr] at hcard
      simpa [cellKeys] using hcard
    · intro p hp
      have hkl : p.1 ∈ (cellKeys l).toFinset :=
        List.mem_toFinset.mpr (List.mem_map_of_mem Prod.fst hp)
      have hkr : p.1 ∈ cellKeys r := List.mem_toFinset.mp (heq ▸ hkl)
      rw [cellsLookup_eq_hasKey r p.1 hrt]
      exact (hasKey_iff_mem r p.1).mpr hkr

/-! ### Claim theorems: commit short-circuit and reconciliation -/

/-- C4: with a client, an own row and a user id, `persistMyCells` issues no
backend write exactly when the buffer is set-equal to the committed cells —
regardless of the insertion order of keys in either record — and otherwise
writes the full buffer with `last_editor` = the current display name and
`updated_at` = now. -/
theorem commit_short_circuit (hasClient : Bool) (m : TeamMember) (userId : String)
    (nowMs : Int) (buffer : Cells)
    (hc : hasClient = true) (hu : userId ≠ "")
    (hnb : (cellKeys buffer).Nodup) (hnm : (cellKeys m.cells).Nodup)
    (hbt : allTrueCells buffer = true) :
    persistMyCells hasClient (some m) userId nowMs buffer
      = if (cellKeys m.cells).toFinset = (cellKeys buffer).toFinset then none
        else some { cells := buffer, lastEditor := m.display_name, updatedAtMs := nowMs } := by
  subst hc
  have hub : (userId == "") = false := by
    cases h : userId == "" with
    | false => rfl
    | true => exact absurd (beq_iff_eq.mp h) hu
  by_cases hs : sameCells m.cells buffer = true
  · have hf := (sameCells_iff_toFinset m.cells buffer hnm hnb hbt).mp hs
    simp [persistMyCells, hub, hs, hf]
  · have hs' : sameCells m.cells buffer = false := by
      revert hs; cases sameCells m.cells buffer <;> simp
    have hf : ¬ ((cellKeys m.cells).toFinset = (cellKeys buffer).toFinset) := fun h =>
      hs ((sameCells_iff_toFinset m.cells buffer hnm hnb hbt).mpr h)
    simp [persistMyCells, hub, hs', hf]

theorem commit_short_circuit_witness :
    persistMyCells true
        (some ⟨"id", "u", "Alice", [("0-1", true), ("0-2", true)], .ms 5, false⟩)
        "u" 42 [("0-2", true), ("0-1", true)] = none := by
  rw [commit_short_circuit true
    ⟨"id", "u", "Alice", [("0-1", true), ("0-2", true)], .ms 5, false⟩
    "u" 42 [("0-2", true), ("0-1", true)] rfl (by decide) (by decide) (by decide) (by decide)]
  rw [if_pos (by decide)]

/-- C8: when no drawing is active and the local user's row is known, the
draft buffer is replaced by the newly committed cells if and only if it
differs from them under structural set-equality; a set-equal update returns
the previous buffer object unchanged. -/
theorem draft_reconciliation (m : TeamMember) (draft : Cells)
    (hnd : (cellKeys draft).Nodup) (hnm : (cellKeys m.cells).Nodup)
    (hmt : allTrueCells m.cells = true) :
    reconcileDraft false (some m) draft
      = if (cellKeys draft).toFinset = (cellKeys m.cells).toFinset then draft
        else m.cells := by
  by_cases hs : sameCells draft m.cells = true
  · have hf := (sameCells_iff_toFinset draft m.cells hnd hnm hmt).mp hs
    simp [reconcileDraft, hs, hf]
  · have hs' : sameCells draft m.cells = false := by
      revert hs; cases sameCells draft m.cells <;> simp
    have hf : ¬ ((cellKeys draft).toFinset = (cellKeys m.cells).toFinset) := fun h =>
      hs ((sameCells_iff_toFinset draft m.cells hnd hnm hmt).mpr h)
    simp [reconcileDraft, hs', hf]

theorem draft_reconciliation_witness :
    reconcileDraft false
        (some ⟨"id", "u", "Alice", [("0-1", true), ("0-2", true)], .ms 5, false⟩)
        [("0-2", true), ("0-1", true)] = [("0-2", true), ("0-1", true)] := by
  rw [draft_reconciliation
    ⟨"id", "u", "Alice", [("0-1", true), ("0-2", true)], .ms 5, false⟩
    [("0-2", true), ("0-1", true)] (by decide) (by decide) (by decide)]
  rw [if_pos (by decide)]

/-! ### Aggregation lemmas -/

theorem foldl_count_eq_countP (p : TeamMember → Bool) (ms : List TeamMember) (n : Nat) :
    ms.foldl (fun count m => count + (if p m then 1 else 0)) n = n + ms.countP p := by
  induction ms generalizing n with
  | nil => simp
  | cons m ms ih =>
    simp only [List.foldl_cons, List.countP_cons, ih]
    cases hp : p m
    · simp [hp]
    · simp [hp]
      omega

theorem countLookup_map_self (f : String → Nat) (l : List String) (k : String)
    (h : k ∈ l) :
    countLookup (l.map (fun x => (x, f x))) k = f k := by
  induction l with
  | nil => cases h
  | cons x xs ih =>
    cases hx : (x == k) with
    | true =>
      have hxk : x = k := beq_iff_eq.mp hx
      simp [countLookup, List.find?, hx, hxk]
    | false =>
      have hk : k ∈ xs := by
        rcases List.mem_cons.mp h with h | h
        · exact absurd (beq_iff_eq.mpr h.symm) (by simp [hx])
        · exact h
      simpa [countLookup, List.find?, hx] using ih hk

theorem keyFor_mem_allSlotKeys (day slot : Nat)
    (hd : day < DAY_LABELS.length) (hs : slot < SLOT_COUNT) :
    keyFor day slot ∈ allSlotKeys := by
  unfold allSlotKeys
  rw [List.mem_flatMap]
  exact ⟨day, List.mem_range.mpr hd, List.mem_map.mpr ⟨slot, List.mem_range.mpr hs, rfl⟩⟩

theorem countLookup_availability (ms : List TeamMember) (k : String)
    (h : k ∈ allSlotKeys) :
    countLookup (availabilityCountByCell ms) k
      = ms.countP (fun m => isAvailable m k) := by
  unfold availabilityCountByCell
  rw [countLookup_map_self
    (fun key => ms.foldl (fun count m => count + (if isAvailable m key then 1 else 0)) 0)
    allSlotKeys k h]
  simpa using foldl_count_eq_countP (fun m => isAvailable m k) ms 0

theorem cellsLookup_mapTrue (l : List String) (k : String) :
    cellsLookup (l.map (fun x => (x, true))) k = l.any (fun x => x == k) := by
  induction l with
  | nil => rfl
  | cons x xs ih =>
    cases hx : (x == k) with
    | true => simp [cellsLookup, List.find?, hx]
    | false => simpa [cellsLookup, List.find?, hx] using ih

theorem any_beq_iff_mem (l : List String) (k : String) :
    l.any (fun x => x == k) = true ↔ k ∈ l := by
  rw [List.any_eq_true]
  constructor
  · rintro ⟨x, hx, hxk⟩
    rw [← beq_iff_eq.mp hxk]
    exact hx
  · intro h
    exact ⟨k, h, beq_iff_eq.mpr rfl⟩

theorem commonCells_lookup_iff (ms : List TeamMember) (day slot : Nat)
    (hd : day < DAY_LABELS.length) (hs : slot < SLOT_COUNT) :
    cellsLookup (commonCells ms) (keyFor day slot) = true ↔
      ms ≠ [] ∧ ms.countP (fun m => isAvailable m (keyFor day slot)) = ms.length := by
  unfold commonCells
  by_cases hempty : ms = []
  · subst hempty
    simp [cellsLookup]
  · have hlen : (ms.length == 0) = false := by
      have := List.length_pos.mpr hempty
      simp [Nat.ne_of_gt this]
    simp only [hlen, Bool.false_eq_true, if_false]
    rw [cellsLookup_mapTrue, any_beq_iff_mem, List.mem_filter]
    constructor
    · rintro ⟨hmem, hpred⟩
      refine ⟨hempty, ?_⟩
      rw [← countLookup_availability ms (keyFor day slot) hmem]
      exact beq_iff_eq.mp hpred
    · rintro ⟨_, hcount⟩
      have hmem := keyFor_mem_allSlotKeys day slot hd hs
      refine ⟨hmem, ?_⟩
      rw [beq_iff_eq, countLookup_availability ms (keyFor day slot) hmem]
      exact hcount

theorem countP_available_eq_countP_mem (ms : List TeamMember) (k : String)
    (h : ∀ m ∈ ms, allTrueCells m.cells = true) :
    ms.countP (fun m => isAvailable m k)
      = ms.countP (fun m => decide (k ∈ cellKeys m.cells)) := by
  induction ms with
  | nil => rfl
  | cons m ms ih =>
    have hm := h m (List.mem_cons_self m ms)
    have hrest := ih (fun x hx => h x (List.mem_cons_of_mem m hx))
    have hiff : isAvailable m k = decide (k ∈ cellKeys m.cells) := by
      rw [isAvailable, cellsLookup_eq_hasKey m.cells k hm]
      cases hk : hasKey m.cells k with
      | true => simp [(hasKey_iff_mem m.cells k).mp hk]
      | false =>
        have : ¬ (k ∈ cellKeys m.cells) := fun hmem =>
          by rw [(hasKey_iff_mem m.cells k).mpr hmem] at hk; cases hk
        simp [this]
    simp [List.countP_cons, hiff, hrest]

/-! ### Claim theorem: aggregation counts and common set -/

/-- C1: for every member list (with the local user's cells taken from the
draft buffer) and every slot key, the computed availability count equals
the number of members whose cell set contains that key (`isAvailable`,
which on genuine sets is key membership), the common record holds exactly
the keys whose count equals the member count, and an empty member list
yields an empty common record. -/
theorem aggregation_counts_and_common (members : List TeamMember) (userId : String)
    (draft : Cells) (day slot : Nat)
    (hd : day < DAY_LABELS.length) (hs : slot < SLOT_COUNT) :
    countLookup (availabilityCountByCell (membersForCalculation members userId draft))
        (keyFor day slot)
      = (membersForCalculation members userId draft).countP
          (fun m => isAvailable m (keyFor day slot))
    ∧ ((∀ m ∈ membersForCalculation members userId draft, allTrueCells m.cells = true) →
        (membersForCalculation members userId draft).countP
            (fun m => isAvailable m (keyFor day slot))
          = (membersForCalculation members userId draft).countP
              (fun m => decide (keyFor day slot ∈ cellKeys m.cells)))
    ∧ (cellsLookup (commonCells (membersForCalculation members userId draft))
          (keyFor day slot) = true ↔
        membersForCalculation members userId draft ≠ []
        ∧ (membersForCalculation members userId draft).countP
            (fun m => isAvailable m (keyFor day slot))
          = (membersForCalculation members userId draft).length)
    ∧ commonCells [] = [] :=
  ⟨countLookup_availability (membersForCalculation members userId draft) (keyFor day slot)
      (keyFor_mem_allSlotKeys day slot hd hs),
    fun h => countP_available_eq_countP_mem
      (membersForCalculation members userId draft) (keyFor day slot) h,
    commonCells_lookup_iff (membersForCalculation members userId draft) day slot hd hs,
    rfl⟩

theorem aggregation_counts_and_common_witness :
    countLookup
        (availabilityCountByCell
          (membersForCalculation
            [⟨"a", "uA", "A", [("0-0", true)], .ms 5, false⟩,
             ⟨"b", "uB", "B", [("0-0", true), ("0-1", true)], .ms 5, false⟩,
             ⟨"c", "uC", "C", [], .ms 5, false⟩] "uA" [("0-0", true)]))
        (keyFor 0 0) = 2
    ∧ (cellsLookup
        (commonCells
          (membersForCalculation
            [⟨"a", "uA", "A", [("0-0", true)], .ms 5, false⟩,
             ⟨"b", "uB", "B", [("0-0", true), ("0-1", true)], .ms 5, false⟩,
             ⟨"c", "uC", "C", [], .ms 5, false⟩] "uA" [("0-0", true)]))
        (keyFor 0 0) = true ↔
        membersForCalculation
            [⟨"a", "uA", "A", [("0-0", true)], .ms 5, false⟩,
             ⟨"b", "uB", "B", [("0-0", true), ("0-1", true)], .ms 5, false⟩,
             ⟨"c", "uC", "C", [], .ms 5, false⟩] "uA" [("0-0", true)] ≠ []
        ∧ (membersForCalculation
            [⟨"a", "uA", "A", [("0-0", true)], .ms 5, false⟩,
             ⟨"b", "uB", "B", [("0-0", true), ("0-1", true)], .ms 5, false⟩,
             ⟨"c", "uC", "C", [], .ms 5, false⟩] "uA" [("0-0", true)]).countP
            (fun m => isAvailable m (keyFor 0 0))
          = (membersForCalculation
            [⟨"a", "uA", "A", [("0-0", true)], .ms 5, false⟩,
             ⟨"b", "uB", "B", [("0-0", true), ("0-1", true)], .ms 5, false⟩,
             ⟨"c", "uC", "C", [], .ms 5, false⟩] "uA" [("0-0", true)]).length) := by
  constructor
  · rw [(aggregation_counts_and_common
      [⟨"a", "uA", "A", [("0-0", true)], .ms 5, false⟩,
       ⟨"b", "uB", "B", [("0-0", true), ("0-1", true)], .ms 5, false⟩,
       ⟨"c", "uC", "C", [], .ms 5, false⟩] "uA" [("0-0", true)] 0 0
      (by decide) (by decide)).1]
    decide
  · exact (aggregation_counts_and_common
      [⟨"a", "uA", "A", [("0-0", true)], .ms 5, false⟩,
       ⟨"b", "uB", "B", [("0-0", true), ("0-1", true)], .ms 5, false⟩,
       ⟨"c", "uC", "C", [], .ms 5, false⟩] "uA" [("0-0", true)] 0 0
      (by decide) (by decide)).2.2.1

/-! ### Run-scan lemmas for `recommendedBlocks` -/

/-- The value of the `start` variable after scanning slots `0..k-1` with
flags `d`: `some s` iff a run of common slots is open and began at `s`. -/
def runStart (d : Nat → Bool) : Nat → Option Nat
  | 0 => none
  | k + 1 =>
    if d k then (match runStart d k with | some s => some s | none => some k) else none

theorem scan_snd (d : Nat → Bool) (day minSlots : Nat) (k : Nat) :
    ((List.range k).foldl (scanStep d day minSlots) ([], none)).2 = runStart d k := by
  induction k with
  | zero => rfl
  | succ k ih =>
    rw [List.range_succ, List.foldl_append, List.foldl_cons, List.foldl_nil]
    rcases hF : (List.range k).foldl (scanStep d day minSlots) ([], none) with ⟨blocks, start⟩
    rw [hF] at ih
    simp only at ih
    rw [show runStart d (k + 1)
      = if d k then (match runStart d k with | some s => some s | none => some k) else none
      from rfl]
    rw [← ih]
    cases hdk : d k with
    | true => cases start <;> simp [scanStep, hdk]
    | false => cases start <;> simp [scanStep, hdk, apply_ite]

theorem runStart_none_boundary (d : Nat → Bool) (k : Nat) (h : runStart d k = none) :
    k = 0 ∨ d (k - 1) = false := by
  cases k with
  | zero => exact Or.inl rfl
  | succ k' =>
    right
    rw [runStart] at h
    cases hdk : d k' with
    | false => simpa using hdk
    | true =>
      rw [hdk] at h
      simp only [if_true] at h
      cases hrs : runStart d k' with
      | some s => rw [hrs] at h; cases h
      | none => rw [hrs] at h; cases h

theorem runStart_eq_some_iff (d : Nat → Bool) (k s : Nat) :
    runStart d k = some s ↔
      s < k ∧ (∀ i, s ≤ i → i < k → d i = true) ∧ (s = 0 ∨ d (s - 1) = false) := by
  induction k generalizing s with
  | zero => simp [runStart]
  | succ k ih =>
    rw [runStart]
    cases hdk : d k with
    | false =>
      simp only [Bool.false_eq_true, if_false]
      constructor
      · intro h; cases h
      · rintro ⟨hsk, hall, _⟩
        have := hall k (by omega) (by omega)
        rw [hdk] at this
        cases this
    | true =>
      simp only [if_true]
      cases hrs : runStart d k with
      | some s' =>
        obtain ⟨hs'k, hall', hb'⟩ := (ih s').mp hrs
        constructor
        · intro h
          have hss : s = s' := by
            have := Option.some.inj h
            omega
          subst hss
          refine ⟨by omega, ?_, hb'⟩
          intro i h1 h2
          by_cases hik : i < k
          · exact hall' i h1 hik
          · have : i = k := by omega
            rw [this, hdk]
        · rintro ⟨hsk, hall, hb⟩
          by_cases hsltk : s < k
          · have : runStart d k = some s :=
              (ih s).mpr ⟨hsltk, fun i h1 h2 => hall i h1 (by omega), hb⟩
            rw [hrs] at this
            exact this
          · have hsk' : s = k := by omega
            subst hsk'
            rcases hb with h0 | hfalse
            · omega
            · have : d (s - 1) = true := hall' (s - 1) (by omega) (by omega)
              rw [hfalse] at this
              cases this
      | none =>
        constructor
        · intro h
          have hsk : s = k := (Option.some.inj h).symm
          subst hsk
          refine ⟨by omega, ?_, ?_⟩
          · intro i h1 h2
            have : i = s := by omega
            rw [this, hdk]
          · rcases runStart_none_boundary d s hrs with h0 | hf
            · exact Or.inl h0
            · exact Or.inr hf
        · rintro ⟨hsk, hall, hb⟩
          by_cases hsltk : s < k
          · have : runStart d k = some s :=
              (ih s).mpr ⟨hsltk, fun i h1 h2 => hall i h1 (by omega), hb⟩
            rw [hrs] at this
            cases this
          · have : s = k := by omega
            rw [this]

theorem scan_fst_mem (d : Nat → Bool) (day minSlots : Nat) (k : Nat) (b : TimeBlock) :
    b ∈ ((List.range k).foldl (scanStep d day minSlots) ([], none)).1 ↔
      ∃ s e, e < k ∧ runStart d e = some s ∧ d e = false ∧ minSlots ≤ e - s
        ∧ b = mkBlock day s e := by
  induction k with
  | zero => simp
  | succ k ih =>
    rw [List.range_succ, List.foldl_append, List.foldl_cons, List.foldl_nil]
    rcases hF : (List.range k).foldl (scanStep d day minSlots) ([], none) with ⟨blocks, start⟩
    have hsnd := scan_snd d day minSlots k
    rw [hF] at ih hsnd
    simp only at ih hsnd
    cases hdk : d k with
    | true =>
      have hfst : (scanStep d day minSlots (blocks, start) k).1 = blocks := by
        cases start <;> simp [scanStep, hdk]
      rw [hfst, ih]
      constructor
      · rintro ⟨s, e, he, hrs, hde, hms, hb⟩
        exact ⟨s, e, by omega, hrs, hde, hms, hb⟩
      · rintro ⟨s, e, he, hrs, hde, hms, hb⟩
        have hek : e ≠ k := by
          intro h
          rw [h, hdk] at hde
          cases hde
        exact ⟨s, e, by omega, hrs, hde, hms, hb⟩
    | false =>
      cases hstart : start with
      | none =>
        rw [hstart] at hsnd
        have hfst : (scanStep d day minSlots (blocks, none) k).1 = blocks := by
          simp [scanStep, hdk]
        rw [hfst, ih]
        constructor
        · rintro ⟨s, e, he, hrs, hde, hms, hb⟩
          exact ⟨s, e, by omega, hrs, hde, hms, hb⟩
        · rintro ⟨s, e, he, hrs, hde, hms, hb⟩
          have hek : e ≠ k := by
            intro h
            rw [h, ← hsnd] at hrs
            cases hrs
          exact ⟨s, e, by omega, hrs, hde, hms, hb⟩
      | some s0 =>
        rw [hstart] at hsnd
        by_cases hms0 : minSlots ≤ k - s0
        · have hfst : (scanStep d day minSlots (blocks, some s0) k).1
              = blocks ++ [mkBlock day s0 k] := by
            simp [scanStep, hdk, hms0]
          rw [hfst, List.mem_append, List.mem_singleton, ih]
          constructor
          · rintro (⟨s, e, he, hrs, hde, hms, hb⟩ | rfl)
            · exact ⟨s, e, by omega, hrs, hde, hms, hb⟩
            · exact ⟨s0, k, by omega, hsnd.symm, hdk, hms0, rfl⟩
          · rintro ⟨s, e, he, hrs, hde, hms, hb⟩
            by_cases hek : e = k
            · subst hek
              rw [← hsnd] at hrs
              have : s0 = s := Option.some.inj hrs
              subst this
              exact Or.inr hb
            · exact Or.inl ⟨s, e, by omega, hrs, hde, hms, hb⟩
        · have hfst : (scanStep d day minSlots (blocks, some s0) k).1 = blocks := by
            simp [scanStep, hdk, hms0]
          rw [hfst, ih]
          constructor
          · rintro ⟨s, e, he, hrs, hde, hms, hb⟩
            exact ⟨s, e, by omega, hrs, hde, hms, hb⟩
          · rintro ⟨s, e, he, hrs, hde, hms, hb⟩
            have hek : e ≠ k := by
              intro h
              subst h
              rw [← hsnd] at hrs
              have : s0 = s := Option.some.inj hrs
              subst this
              exact hms0 hms
            exact ⟨s, e, by omega, hrs, hde, hms, hb⟩

/-! ### Claim theorem: contiguous block extraction -/

/-- Whether a slot of a day is in the common set. -/
def commonAt (members : List TeamMember) (day slot : Nat) : Bool :=
  cellsLookup (commonCells members) (keyFor day slot)

/-- A single member marking day-0 slots {2,3,4,7,8} (so those are exactly
the common slots). -/
def exampleMembers : List TeamMember :=
  [⟨"m", "u", "M", [(keyFor 0 2, true), (keyFor 0 3, true), (keyFor 0 4, true),
    (keyFor 0 7, true), (keyFor 0 8, true)], .ms 0, false⟩]

/-- A single member marking only the lone day-0 slot 10. -/
def loneSlotMembers : List TeamMember :=
  [⟨"m", "u", "M", [(keyFor 0 10, true)], .ms 0, false⟩]

theorem minSlots_le_iff (minimumDuration L : Nat)
    (hdur : minimumDuration ∈ DURATION_OPTIONS) :
    max 1 (minimumDuration / SLOT_MINUTES) ≤ L ↔ minimumDuration ≤ L * SLOT_MINUTES := by
  simp only [DURATION_OPTIONS, List.mem_cons, List.not_mem_nil, or_false] at hdur
  rcases hdur with rfl | rfl | rfl | rfl
  all_goals simp only [SLOT_MINUTES]
  all_goals norm_num
  all_goals omega

/-- C2: for every nonempty member list and every configured
`minimumDurationMinutes`, block extraction scans each day independently and
emits `⟨day, startSlot, endSlotExclusive, (endSlot-startSlot)*SLOT_MINUTES⟩`
exactly for the maximal runs of consecutive common slots within a day whose
minutes meet or exceed the minimum; runs never cross a day boundary
(`e ≤ SLOT_COUNT`).  In particular, for one day with common slots
{2,3,4,7,8} and minimum 60 the blocks are `⟨0,2,5,90⟩` and `⟨0,7,9,60⟩`, and
a lone common slot produces no block. -/
theorem recommended_blocks_characterization (members : List TeamMember)
    (minimumDuration : Nat) (b : TimeBlock)
    (hmem : members ≠ []) (hdur : minimumDuration ∈ DURATION_OPTIONS) :
    (b ∈ recommendedBlocks members minimumDuration ↔
      ∃ day s e, day < DAY_LABELS.length ∧ s < e ∧ e ≤ SLOT_COUNT
        ∧ (∀ i, s ≤ i → i < e → commonAt members day i = true)
        ∧ (s = 0 ∨ commonAt members day (s - 1) = false)
        ∧ (e = SLOT_COUNT ∨ commonAt members day e = false)
        ∧ minimumDuration ≤ (e - s) * SLOT_MINUTES
        ∧ b = mkBlock day s e)
    ∧ recommendedBlocks exampleMembers 60 = [⟨0, 2, 5, 90⟩, ⟨0, 7, 9, 60⟩]
    ∧ recommendedBlocks loneSlotMembers 60 = [] := by
  refine ⟨?_, by decide, by decide⟩
  have hlen : (members.length == 0) = false := by
    have := List.length_pos.mpr hmem
    simp [Nat.ne_of_gt this]
  unfold recommendedBlocks
  simp only [hlen, Bool.false_eq_true, if_false]
  rw [List.mem_flatMap]
  constructor
  · rintro ⟨day, hday, hb⟩
    rw [List.mem_range] at hday
    rw [scan_fst_mem] at hb
    obtain ⟨s, e, he, hrs, hde, hms, hb⟩ := hb
    rw [runStart_eq_some_iff] at hrs
    obtain ⟨hse, hall, hsb⟩ := hrs
    have hallC : ∀ i, s ≤ i → i < e →
        i < SLOT_COUNT ∧ commonAt members day i = true := by
      intro i h1 h2
      have := hall i h1 h2
      simp only [Bool.and_eq_true, decide_eq_true_eq] at this
      exact ⟨this.1, this.2⟩
    have heC : e ≤ SLOT_COUNT := by
      have := (hallC (e - 1) (by omega) (by omega)).1
      omega
    refine ⟨day, s, e, hday, hse, heC, fun i h1 h2 => (hallC i h1 h2).2, ?_, ?_, ?_, hb⟩
    · rcases hsb with h0 | hf
      · exact Or.inl h0
      · by_cases hs0 : s = 0
        · exact Or.inl hs0
        · right
          have hlt : s - 1 < SLOT_COUNT := by omega
          cases hc : commonAt members day (s - 1) with
          | false => rfl
          | true =>
            rw [show (decide (s - 1 < SLOT_COUNT)) = true by simp [hlt]] at hf
            rw [show cellsLookup (commonCells members) (keyFor day (s - 1))
              = commonAt members day (s - 1) from rfl, hc] at hf
            cases hf
    · by_cases heq : e = SLOT_COUNT
      · exact Or.inl heq
      · right
        have hlt : e < SLOT_COUNT := by omega
        cases hc : commonAt members day e with
        | false => rfl
        | true =>
          rw [show (decide (e < SLOT_COUNT)) = true by simp [hlt]] at hde
          rw [show cellsLookup (commonCells members) (keyFor day e)
            = commonAt members day e from rfl, hc] at hde
          cases hde
    · rw [← minSlots_le_iff minimumDuration (e - s) hdur]
      exact hms
  · rintro ⟨day, s, e, hday, hse, heC, hall, hsb, heb, hmin, hb⟩
    refine ⟨day, List.mem_range.mpr hday, ?_⟩
    rw [scan_fst_mem]
    refine ⟨s, e, by omega, ?_, ?_, ?_, hb⟩
    · rw [runStart_eq_some_iff]
      refine ⟨hse, ?_, ?_⟩
      · intro i h1 h2
        have hi : i < SLOT_COUNT := by omega
        simp only [Bool.and_eq_true, decide_eq_true_eq]
        exact ⟨hi, hall i h1 h2⟩
      · rcases hsb with h0 | hf
        · exact Or.inl h0
        · right
          rw [show cellsLookup (commonCells members) (keyFor day (s - 1))
            = commonAt members day (s - 1) from rfl, hf]
          simp
    · rcases heb with h0 | hf
      · rw [h0]
        simp
      · rw [show cellsLookup (commonCells members) (keyFor day e)
          = commonAt members day e from rfl, hf]
        simp
    · rw [minSlots_le_iff minimumDuration (e - s) hdur]
      exact hmin

theorem recommended_blocks_characterization_witness :
    recommendedBlocks exampleMembers 60 = [⟨0, 2, 5, 90⟩, ⟨0, 7, 9, 60⟩]
    ∧ recommendedBlocks loneSlotMembers 60 = [] :=
  ⟨(recommended_blocks_characterization exampleMembers 60 ⟨0, 0, 0, 0⟩
      (by decide) (by decide)).2.1,
    (recommended_blocks_characterization loneSlotMembers 60 ⟨0, 0, 0, 0⟩
      (by decide) (by decide)).2.2⟩

end Scheduler
